import Mathlib

/-!
Verification of the edit-resolution and patching core of the `pytoma`
repository (`pytoma/edits.py`): `merge_edits` (the overlap resolver) and
`_apply_edits_to_text` (the text patcher).

Modelling choices:
* Python `str` text is a `List Char` (code points); slicing `s[:i]`, `s[j:]`
  become `List.take`/`List.drop`.
* Python `int` offsets are `Int` (so the defensive `0 ≤ s` check is real).
* `pathlib.Path(p)` grouping and `as_posix()` ordering are modelled by a
  `canonPath : String → String` canonicalisation.
* Python's stable `sorted` is `List.insertionSort` with the corresponding
  (total, transitive) relation: Mathlib's `insertionSort` is stable.
* `raise ValueError` is an `Except` error value carrying exactly the data
  interpolated into the Python message.
-/

namespace Pytoma

instance {ε α : Type} [DecidableEq ε] [DecidableEq α] : DecidableEq (Except ε α) := fun x y =>
  match x, y with
  | .error a, .error b =>
    if h : a = b then .isTrue (by rw [h]) else .isFalse (by simp [h])
  | .ok a, .ok b =>
    if h : a = b then .isTrue (by rw [h]) else .isFalse (by simp [h])
  | .error _, .ok _ => .isFalse (by simp)
  | .ok _, .error _ => .isFalse (by simp)

/-- Modelled from the spec: the `Edit` record of `pytoma.ir` (the `ir`
module itself is not in the sources; its shape is fixed by the spec's
"immutable record {document identity, span, replacement text}" and by every
construction site `Edit(path=..., span=(s, t), replacement=...)`): a
proposed replacement of the half-open `span` of the document identified by
`path` with `replacement`. -/
structure Edit where
  path : String
  span : Int × Int
  replacement : List Char
deriving DecidableEq

/-- Split a character list at every slash; returns the (possibly empty)
groups between slashes. -/
def splitSlash : List Char → List (List Char)
  | [] => [[]]
  | c :: rest =>
    match splitSlash rest with
    | [] => [[]]
    | g :: gs => if c = '/' then [] :: g :: gs else (c :: g) :: gs

/-- Join character-list components with single slashes. -/
def joinSlash : List (List Char) → List Char
  | [] => []
  | [g] => g
  | g :: gs => g ++ '/' :: joinSlash gs

/-- Leading-slash root of a POSIX path: exactly two leading slashes are kept
verbatim, any other positive number collapses to one, none means a relative
path (`pathlib.PurePosixPath` root handling). -/
def posixRoot : List Char → List Char
  | '/' :: '/' :: rest =>
    match rest with
    | '/' :: _ => ['/']
    | _ => ['/', '/']
  | '/' :: _ => ['/']
  | _ => []

/-- Canonical POSIX form of a path string, i.e. `Path(p).as_posix()` for the
POSIX flavour: empty and "." components dropped, repeated slashes collapsed
(except a leading "//"), trailing slashes dropped, empty input is ".". -/
def canonPath (p : String) : String :=
  let comps := (splitSlash p.data).filter fun g => decide (g ≠ [] ∧ g ≠ ['.'])
  let root := posixRoot p.data
  let body := joinSlash comps
  if root = [] ∧ body = [] then ⟨['.']⟩ else ⟨root ++ body⟩

/-- Code-point lexicographic order on character lists: the order Python's
string comparison uses when sorting the document keys. -/
def strLe : List Char → List Char → Prop
  | [], _ => True
  | _ :: _, [] => False
  | a :: as, b :: bs => a < b ∨ (a = b ∧ strLe as bs)

instance strLeDec : (a b : List Char) → Decidable (strLe a b)
  | [], _ => .isTrue trivial
  | _ :: _, [] => .isFalse fun h => h
  | a :: as, b :: bs =>
    haveI := strLeDec as bs
    decidable_of_iff (a < b ∨ (a = b ∧ strLe as bs)) Iff.rfl

theorem strLe_refl : ∀ (a : List Char), strLe a a
  | [] => trivial
  | _ :: as => Or.inr ⟨rfl, strLe_refl as⟩

theorem strLe_total : ∀ (a b : List Char), strLe a b ∨ strLe b a
  | [], _ => Or.inl trivial
  | _ :: _, [] => Or.inr trivial
  | a :: as, b :: bs => by
    rcases lt_trichotomy a b with h | h | h
    · exact Or.inl (Or.inl h)
    · subst h
      rcases strLe_total as bs with h | h
      · exact Or.inl (Or.inr ⟨rfl, h⟩)
      · exact Or.inr (Or.inr ⟨rfl, h⟩)
    · exact Or.inr (Or.inl h)

theorem strLe_trans : ∀ {a b c : List Char}, strLe a b → strLe b c → strLe a c
  | [], _, _, _, _ => trivial
  | _ :: _, [], _, h, _ => h.elim
  | _ :: _, _ :: _, [], _, h => h.elim
  | a :: as, b :: bs, c :: cs, hab, hbc => by
    rcases hab with hab | ⟨hab, hr1⟩
    · rcases hbc with hbc | ⟨hbc, hr2⟩
      · exact Or.inl (lt_trans hab hbc)
      · exact Or.inl (hbc ▸ hab)
    · rcases hbc with hbc | ⟨hbc, hr2⟩
      · exact Or.inl (hab ▸ hbc)
      · exact Or.inr ⟨hab.trans hbc, strLe_trans hr1 hr2⟩

theorem strLe_antisymm : ∀ {a b : List Char}, strLe a b → strLe b a → a = b
  | [], [], _, _ => rfl
  | [], _ :: _, _, h => h.elim
  | _ :: _, [], h, _ => h.elim
  | a :: as, b :: bs, hab, hba => by
    rcases hab with hab | ⟨hab, hr1⟩
    · rcases hba with hba | ⟨hba, _⟩
      · exact absurd hba (lt_asymm hab)
      · exact absurd hab (by rw [hba]; exact lt_irrefl a)
    · rcases hba with hba | ⟨_, hr2⟩
      · exact absurd hba (by rw [hab]; exact lt_irrefl b)
      · rw [hab, strLe_antisymm hr1 hr2]

/-- Ascending order on canonical path strings: Python's string comparison
on the keys of the per-document groups. -/
def pathLe (a b : String) : Prop := strLe a.data b.data

instance : DecidableRel pathLe := fun a b => by
  unfold pathLe; exact inferInstance

instance : IsTotal String pathLe := ⟨fun a b => strLe_total a.data b.data⟩

instance : IsTrans String pathLe := ⟨fun _ _ _ => strLe_trans⟩

theorem pathLe_refl (a : String) : pathLe a a := strLe_refl a.data

theorem pathLe_antisymm {a b : String} (h1 : pathLe a b) (h2 : pathLe b a) : a = b := by
  cases a; cases b
  exact congrArg String.mk (strLe_antisymm h1 h2)

/-- Strict version of `pathLe`. -/
def pathLt (a b : String) : Prop := pathLe a b ∧ a ≠ b

theorem pathLt_of_lt_of_le {a b c : String} (h1 : pathLt a b) (h2 : pathLe b c) :
    pathLt a c := by
  refine ⟨strLe_trans h1.1 h2, fun he => h1.2 ?_⟩
  subst he
  exact pathLe_antisymm h1.1 h2

/-- The resolver's per-document sort order: ascending start offset, then
descending end offset (the Python key `(e.span[0], -e.span[1])`). -/
def editLe (a b : Edit) : Prop :=
  a.span.1 < b.span.1 ∨ (a.span.1 = b.span.1 ∧ b.span.2 ≤ a.span.2)

instance : DecidableRel editLe := fun a b => by
  unfold editLe; exact inferInstance

instance : IsTotal Edit editLe := ⟨by
  intro a b; unfold editLe; omega⟩

instance : IsTrans Edit editLe := ⟨by
  intro a b c hab hbc; unfold editLe at hab hbc ⊢; omega⟩

/-- The error raised by the resolver on a partial overlap: the document's
canonical path and the two conflicting spans (last kept edit's span first),
exactly the data in the Python `ValueError` message. -/
structure ConflictError where
  path : String
  kept : Int × Int
  cur : Int × Int
deriving DecidableEq

/-- The resolver's scan over one document's sorted edits: compare each edit
against the last kept one; drop fully contained edits, raise on partial
overlap (the `for e in ordered` loop of `merge_edits`). -/
def mergeLoop (p : String) (last : Edit) : List Edit → Except ConflictError (List Edit)
  | [] => .ok []
  | e :: rest =>
    if e.span.1 < last.span.2 then
      if e.span.2 ≤ last.span.2 then mergeLoop p last rest
      else .error ⟨p, last.span, e.span⟩
    else
      match mergeLoop p e rest with
      | .ok ks => .ok (e :: ks)
      | .error err => .error err

/-- Resolve one document's sorted edit list (`kept` starts empty, so the
first edit is always kept). -/
def mergeGroup (p : String) : List Edit → Except ConflictError (List Edit)
  | [] => .ok []
  | e :: rest =>
    match mergeLoop p e rest with
    | .ok ks => .ok (e :: ks)
    | .error err => .error err

/-- The ascending list of distinct canonical document paths of an edit list
(`sorted(by_path.keys(), key=lambda p: p.as_posix())`). -/
def pathKeys (edits : List Edit) : List String :=
  List.insertionSort pathLe ((edits.map fun e => canonPath e.path).dedup)

/-- Resolve every per-document group in ascending path order and concatenate
the kept lists. -/
def mergeAll (edits : List Edit) : List String → Except ConflictError (List Edit)
  | [] => .ok []
  | k :: ks =>
    match mergeGroup k (List.insertionSort editLe (edits.filter fun e => canonPath e.path == k)) with
    | .error err => .error err
    | .ok g =>
      match mergeAll edits ks with
      | .error err => .error err
      | .ok rest => .ok (g ++ rest)

/-- `pytoma.edits.merge_edits`: group the edits by canonical document path,
sort each group by (start ascending, end descending), keep outermost edits
("outermost wins"), raise a `ConflictError` on partial overlap, and
concatenate the per-document kept lists in ascending path order. -/
def merge_edits (edits : List Edit) : Except ConflictError (List Edit) :=
  mergeAll edits (pathKeys edits)

/-- The patcher's sort order: descending start offset (Python
`sorted(edits, key=lambda e: e.span[0], reverse=True)`). -/
def descLe (a b : Edit) : Prop := b.span.1 ≤ a.span.1

instance : DecidableRel descLe := fun a b => by
  unfold descLe; exact inferInstance

instance : IsTotal Edit descLe := ⟨by
  intro a b; unfold descLe; omega⟩

instance : IsTrans Edit descLe := ⟨by
  intro a b c hab hbc; unfold descLe at hab hbc ⊢; omega⟩

/-- The patcher's loop: walk the edits in descending start order, validate
`0 ≤ s ≤ t ≤ lastEnd` and splice `out[:s] + replacement + out[t:]`,
tightening the boundary to `s` (the `for e in ordered` loop of
`_apply_edits_to_text`); a violating span raises with that span. -/
def applyLoop : List Char → Int → List Edit → Except (Int × Int) (List Char)
  | out, _, [] => .ok out
  | out, lastEnd, e :: rest =>
    if 0 ≤ e.span.1 ∧ e.span.1 ≤ e.span.2 ∧ e.span.2 ≤ lastEnd then
      applyLoop (out.take e.span.1.toNat ++ e.replacement ++ out.drop e.span.2.toNat)
        e.span.1 rest
    else .error e.span

/-- `pytoma.edits._apply_edits_to_text`: sort the edits by descending start
offset and apply them right-to-left with the defensive span validation. -/
def _apply_edits_to_text (text : List Char) (edits : List Edit) :
    Except (Int × Int) (List Char) :=
  applyLoop text (text.length : Int) (List.insertionSort descLe edits)

/-- Modelled from the spec: "validate 0 ≤ start ≤ end ≤ boundary, where
boundary starts at the full text length and is tightened to the current
edit's start after each application" — the condition on the
descending-start-ordered edit list under which the patcher must succeed. -/
def spansValid (bound : Int) : List Edit → Prop
  | [] => True
  | e :: rest =>
    (0 ≤ e.span.1 ∧ e.span.1 ≤ e.span.2 ∧ e.span.2 ≤ bound) ∧ spansValid e.span.1 rest

/-- Shorthand for the per-document non-overlap relation between two edits:
the first ends no later than the second starts. -/
def before (a b : Edit) : Prop := a.span.2 ≤ b.span.1

theorem mergeLoop_sublist {p : String} {l : List Edit} :
    ∀ {last ks}, mergeLoop p last l = .ok ks → ks.Sublist l := by
  induction l with
  | nil =>
    intro last ks h
    simp only [mergeLoop, Except.ok.injEq] at h
    simp [← h]
  | cons e rest ih =>
    intro last ks h
    simp only [mergeLoop] at h
    split at h
    · split at h
      · exact (ih h).cons e
      · cases h
    · split at h
      · next ks' hks =>
        simp only [Except.ok.injEq] at h
        rw [← h]
        exact (ih hks).cons₂ e
      · cases h

theorem mergeLoop_chain {p : String} {l : List Edit} :
    ∀ {last ks}, (last :: l).Sorted editLe → mergeLoop p last l = .ok ks →
      (∀ x ∈ ks, before last x) ∧ ks.Pairwise before := by
  induction l with
  | nil =>
    intro last ks _ h
    simp only [mergeLoop, Except.ok.injEq] at h
    simp [← h]
  | cons e rest ih =>
    intro last ks hs h
    have hs' : (last :: rest).Sorted editLe :=
      hs.sublist ((List.sublist_cons_self e rest).cons₂ last)
    have hse : (e :: rest).Sorted editLe := hs.of_cons
    simp only [mergeLoop] at h
    split at h
    · split at h
      · exact ih hs' h
      · cases h
    · next hge =>
      split at h
      · next ks' hks =>
        simp only [Except.ok.injEq] at h
        obtain ⟨hb, hpw⟩ := ih hse hks
        have hle : before last e := by unfold before; omega
        rw [← h]
        refine ⟨?_, List.pairwise_cons.2 ⟨hb, hpw⟩⟩
        intro x hx
        rcases List.mem_cons.1 hx with hx | hx
        · rw [hx]; exact hle
        · have hex : editLe e x :=
            List.rel_of_sorted_cons hse x (mergeLoop_sublist hks |>.mem hx)
          unfold before at hle ⊢
          unfold editLe at hex
          omega
      · cases h

theorem mergeLoop_all_ok {p : String} {l : List Edit} :
    ∀ {last}, (last :: l).Chain' before → mergeLoop p last l = .ok l := by
  induction l with
  | nil => intro last _; rfl
  | cons e rest ih =>
    intro last hc
    have hle : before last e := (List.chain'_cons.1 hc).1
    have hc' : (e :: rest).Chain' before := (List.chain'_cons.1 hc).2
    simp only [mergeLoop]
    rw [if_neg (by unfold before at hle; omega)]
    rw [ih hc']

theorem mergeGroup_sublist {p : String} {l g : List Edit}
    (h : mergeGroup p l = .ok g) : g.Sublist l := by
  cases l with
  | nil =>
    simp only [mergeGroup, Except.ok.injEq] at h
    simp [← h]
  | cons e rest =>
    simp only [mergeGroup] at h
    split at h
    · next ks hks =>
      simp only [Except.ok.injEq] at h
      rw [← h]
      exact (mergeLoop_sublist hks).cons₂ e
    · cases h

theorem mergeGroup_pairwise {p : String} {l g : List Edit}
    (hs : l.Sorted editLe) (h : mergeGroup p l = .ok g) : g.Pairwise before := by
  cases l with
  | nil =>
    simp only [mergeGroup, Except.ok.injEq] at h
    simp [← h]
  | cons e rest =>
    simp only [mergeGroup] at h
    split at h
    · next ks hks =>
      simp only [Except.ok.injEq] at h
      obtain ⟨hb, hpw⟩ := mergeLoop_chain hs hks
      rw [← h]
      exact List.pairwise_cons.2 ⟨hb, hpw⟩
    · cases h

theorem mergeGroup_all_ok {p : String} {l : List Edit}
    (hc : l.Chain' before) : mergeGroup p l = .ok l := by
  cases l with
  | nil => rfl
  | cons e rest =>
    simp only [mergeGroup]
    rw [mergeLoop_all_ok hc]

theorem dedup_all_eq {α : Type} [DecidableEq α] {k : α} :
    ∀ {l : List α}, l ≠ [] → (∀ x ∈ l, x = k) → l.dedup = [k] := by
  intro l
  induction l with
  | nil => intro h _; exact absurd rfl h
  | cons x rest ih =>
    intro _ hall
    have hx : x = k := hall x (List.mem_cons_self x rest)
    cases rest with
    | nil => simp [hx]
    | cons y t =>
      have hr : (y :: t).dedup = [k] :=
        ih (by simp) (fun z hz => hall z (List.mem_cons_of_mem x hz))
      have hmem : x ∈ y :: t := by
        rw [hx]
        exact List.mem_dedup.1 (by rw [hr]; exact List.mem_singleton.2 rfl)
      rw [List.dedup_cons_of_mem hmem, hr]

theorem pathKeys_single {edits : List Edit} {k : String}
    (hne : edits ≠ []) (hall : ∀ e ∈ edits, canonPath e.path = k) :
    pathKeys edits = [k] := by
  unfold pathKeys
  rw [dedup_all_eq (by simpa using hne)
    (by intro x hx; obtain ⟨e, he, rfl⟩ := List.mem_map.1 hx; exact hall e he)]
  rfl

theorem filter_key_all {edits : List Edit} {k : String}
    (hall : ∀ e ∈ edits, canonPath e.path = k) :
    (edits.filter fun e => canonPath e.path == k) = edits := by
  apply List.filter_eq_self.2
  intro e he
  simpa using hall e he

/-- When every edit is on the same document, `merge_edits` is exactly the
sorted single-group resolution. -/
theorem merge_single {edits : List Edit} {k : String}
    (hne : edits ≠ []) (hall : ∀ e ∈ edits, canonPath e.path = k) :
    merge_edits edits = mergeGroup k (List.insertionSort editLe edits) := by
  unfold merge_edits
  rw [pathKeys_single hne hall]
  simp only [mergeAll, filter_key_all hall]
  cases hm : mergeGroup k (List.insertionSort editLe edits) with
  | error err => simp [hm]
  | ok g => simp [hm]

theorem orderedInsert_pos {r : Edit → Edit → Prop} [DecidableRel r] {a b : Edit}
    (l : List Edit) (h : r a b) :
    List.orderedInsert r a (b :: l) = a :: b :: l := by
  simp [List.orderedInsert, h]

theorem orderedInsert_neg {r : Edit → Edit → Prop} [DecidableRel r] {a b : Edit}
    (l : List Edit) (h : ¬ r a b) :
    List.orderedInsert r a (b :: l) = b :: List.orderedInsert r a l := by
  simp [List.orderedInsert, h]

theorem sort_pair_le {r : Edit → Edit → Prop} [DecidableRel r] {a b : Edit} (h : r a b) :
    List.insertionSort r [a, b] = [a, b] := by
  show List.orderedInsert r a (List.orderedInsert r b []) = [a, b]
  exact orderedInsert_pos [] h

theorem sort_pair_gt {r : Edit → Edit → Prop} [DecidableRel r] {a b : Edit} (h : ¬ r a b) :
    List.insertionSort r [a, b] = [b, a] := by
  show List.orderedInsert r a (List.orderedInsert r b []) = [b, a]
  rw [show List.orderedInsert r b [] = [b] from rfl, orderedInsert_neg [] h]
  rfl

theorem merge_singleton (A : Edit) : merge_edits [A] = .ok [A] := by
  rw [merge_single (k := canonPath A.path) (by simp)
    (by intro e he; rw [List.mem_singleton.1 he])]
  rfl

/-- C1: two edits on the same document whose spans genuinely partially
overlap (A.start < B.start < A.end < B.end) make `merge_edits` raise a
conflict error carrying the document's canonical path and both spans,
whatever the insertion order. -/
theorem resolve_partial_overlap_conflict (A B : Edit)
    (hp : canonPath A.path = canonPath B.path)
    (h1 : A.span.1 < B.span.1) (h2 : B.span.1 < A.span.2) (h3 : A.span.2 < B.span.2) :
    merge_edits [A, B] = .error ⟨canonPath A.path, A.span, B.span⟩ ∧
      merge_edits [B, A] = .error ⟨canonPath A.path, A.span, B.span⟩ := by
  have hAB : editLe A B := Or.inl h1
  have hnBA : ¬ editLe B A := by unfold editLe; omega
  have hallAB : ∀ e ∈ [A, B], canonPath e.path = canonPath A.path := by
    intro e he
    rcases List.mem_cons.1 he with rfl | he
    · rfl
    · rw [List.mem_singleton.1 he]; exact hp.symm
  have hallBA : ∀ e ∈ [B, A], canonPath e.path = canonPath A.path := by
    intro e he
    rcases List.mem_cons.1 he with rfl | he
    · exact hp.symm
    · rw [List.mem_singleton.1 he]
  have hloop : mergeLoop (canonPath A.path) A [B] =
      .error ⟨canonPath A.path, A.span, B.span⟩ := by
    simp only [mergeLoop]
    rw [if_pos h2, if_neg (by omega : ¬ B.span.2 ≤ A.span.2)]
  have hgrp : mergeGroup (canonPath A.path) [A, B] =
      .error ⟨canonPath A.path, A.span, B.span⟩ := by
    simp only [mergeGroup, hloop]
  refine ⟨?_, ?_⟩
  · rw [merge_single (by simp) hallAB, sort_pair_le hAB, hgrp]
  · rw [merge_single (by simp) hallBA, sort_pair_gt hnBA, hgrp]

/-- Witness for C1: the spec's concrete conflict scenario, spans (0,5) and
(3,8), in both insertion orders. -/
theorem resolve_partial_overlap_conflict_witness :
    merge_edits [⟨"d", (0, 5), ['a']⟩, ⟨"d", (3, 8), ['b']⟩] =
        .error ⟨canonPath "d", (0, 5), (3, 8)⟩ ∧
      merge_edits [⟨"d", (3, 8), ['b']⟩, ⟨"d", (0, 5), ['a']⟩] =
        .error ⟨canonPath "d", (0, 5), (3, 8)⟩ :=
  resolve_partial_overlap_conflict ⟨"d", (0, 5), ['a']⟩ ⟨"d", (3, 8), ['b']⟩ rfl
    (by decide) (by decide) (by decide)

/-- C2 counterexample: with exactly equal spans and different replacement
texts the insertion order decides which edit survives, so resolving
does not always equal resolving the "outer" edit alone. -/
theorem resolve_nested_order_dependent :
    merge_edits [⟨"a", (1, 4), ['Y']⟩, ⟨"a", (1, 4), ['X']⟩] ≠
      merge_edits [⟨"a", (1, 4), ['X']⟩] := by decide

/-- C2 amended: if A's span contains B's span properly (the spans differ)
and B's start lies strictly before A's end (B is not an empty span sitting
at A's end), then B is dropped regardless of insertion order and resolving
{A, B} equals resolving {A} alone; with exactly equal spans the first-seen
edit wins instead. -/
theorem resolve_nested_idempotent (A B : Edit)
    (hp : canonPath A.path = canonPath B.path)
    (hs : A.span.1 ≤ B.span.1) (he : B.span.2 ≤ A.span.2)
    (hne : A.span ≠ B.span) (hin : B.span.1 < A.span.2) :
    merge_edits [A, B] = merge_edits [A] ∧ merge_edits [B, A] = merge_edits [A] := by
  have hne' : ¬ (A.span.1 = B.span.1 ∧ A.span.2 = B.span.2) := fun hc =>
    hne (Prod.ext_iff.2 hc)
  have hAB : editLe A B := by unfold editLe; omega
  have hnBA : ¬ editLe B A := by unfold editLe; omega
  have hallAB : ∀ e ∈ [A, B], canonPath e.path = canonPath A.path := by
    intro e hm
    rcases List.mem_cons.1 hm with rfl | hm
    · rfl
    · rw [List.mem_singleton.1 hm]; exact hp.symm
  have hallBA : ∀ e ∈ [B, A], canonPath e.path = canonPath A.path := by
    intro e hm
    rcases List.mem_cons.1 hm with rfl | hm
    · exact hp.symm
    · rw [List.mem_singleton.1 hm]
  have hloop : mergeLoop (canonPath A.path) A [B] = .ok [] := by
    simp only [mergeLoop]
    rw [if_pos hin, if_pos he]
  have hgrp : mergeGroup (canonPath A.path) [A, B] = .ok [A] := by
    simp only [mergeGroup, hloop]
  rw [merge_singleton]
  refine ⟨?_, ?_⟩
  · rw [merge_single (by simp) hallAB, sort_pair_le hAB, hgrp]
  · rw [merge_single (by simp) hallBA, sort_pair_gt hnBA, hgrp]

/-- Witness for C2 (amended): the spec's containment scenario, an outer
(0,10) edit absorbing an inner (2,4) edit in both insertion orders. -/
theorem resolve_nested_idempotent_witness :
    merge_edits [⟨"d", (0, 10), "OUTER".data⟩, ⟨"d", (2, 4), "inner".data⟩] =
        merge_edits [⟨"d", (0, 10), "OUTER".data⟩] ∧
      merge_edits [⟨"d", (2, 4), "inner".data⟩, ⟨"d", (0, 10), "OUTER".data⟩] =
        merge_edits [⟨"d", (0, 10), "OUTER".data⟩] :=
  resolve_nested_idempotent ⟨"d", (0, 10), "OUTER".data⟩ ⟨"d", (2, 4), "inner".data⟩
    rfl (by decide) (by decide) (by decide) (by decide)

/-- C7 counterexample: two edits with identical *empty* spans are both
kept — the resolver drops neither of them. -/
theorem resolve_identical_empty_spans_kept :
    merge_edits [⟨"a", (3, 3), ['X']⟩, ⟨"a", (3, 3), ['Y']⟩] =
        .ok [⟨"a", (3, 3), ['X']⟩, ⟨"a", (3, 3), ['Y']⟩] ∧
      merge_edits [⟨"a", (3, 3), ['X']⟩, ⟨"a", (3, 3), ['Y']⟩] ≠
        .ok [⟨"a", (3, 3), ['X']⟩] := by decide

/-- C7 amended: for two same-document edits with identical *nonempty* spans
the resolver keeps the first-seen edit and silently drops the later one; if
the identical spans are empty, both edits are kept. -/
theorem resolve_identical_spans (A B : Edit)
    (hp : canonPath A.path = canonPath B.path) (hs : A.span = B.span) :
    (A.span.1 < A.span.2 → merge_edits [A, B] = .ok [A]) ∧
      (A.span.1 = A.span.2 → merge_edits [A, B] = .ok [A, B]) := by
  have h1 : A.span.1 = B.span.1 := by rw [hs]
  have h2 : A.span.2 = B.span.2 := by rw [hs]
  have hAB : editLe A B := by unfold editLe; omega
  have hallAB : ∀ e ∈ [A, B], canonPath e.path = canonPath A.path := by
    intro e hm
    rcases List.mem_cons.1 hm with rfl | hm
    · rfl
    · rw [List.mem_singleton.1 hm]; exact hp.symm
  refine ⟨fun hlt => ?_, fun heq => ?_⟩
  · have hloop : mergeLoop (canonPath A.path) A [B] = .ok [] := by
      simp only [mergeLoop]
      rw [if_pos (by omega : B.span.1 < A.span.2), if_pos (by omega : B.span.2 ≤ A.span.2)]
    rw [merge_single (by simp) hallAB, sort_pair_le hAB]
    simp only [mergeGroup, hloop]
  · have hloop : mergeLoop (canonPath A.path) A [B] = .ok [B] := by
      simp only [mergeLoop]
      rw [if_neg (by omega : ¬ B.span.1 < A.span.2)]
    rw [merge_single (by simp) hallAB, sort_pair_le hAB]
    simp only [mergeGroup, hloop]

/-- Witness for C7 (amended): identical nonempty spans (1,4) keep only the
first-seen edit; identical empty spans would keep both (antecedent false
here, so the second conjunct is vacuous at this input). -/
theorem resolve_identical_spans_witness :
    ((⟨"d", (1, 4), ['X']⟩ : Edit).span.1 < (⟨"d", (1, 4), ['X']⟩ : Edit).span.2 →
        merge_edits [⟨"d", (1, 4), ['X']⟩, ⟨"d", (1, 4), ['Y']⟩] =
          .ok [⟨"d", (1, 4), ['X']⟩]) ∧
      ((⟨"d", (1, 4), ['X']⟩ : Edit).span.1 = (⟨"d", (1, 4), ['X']⟩ : Edit).span.2 →
        merge_edits [⟨"d", (1, 4), ['X']⟩, ⟨"d", (1, 4), ['Y']⟩] =
          .ok [⟨"d", (1, 4), ['X']⟩, ⟨"d", (1, 4), ['Y']⟩]) :=
  resolve_identical_spans ⟨"d", (1, 4), ['X']⟩ ⟨"d", (1, 4), ['Y']⟩ rfl rfl

/-- C9: a genuine partial overlap between A and B is silently subsumed when
a third edit C contains both: in every insertion order, `merge_edits` on
{A, B, C} raises no error and keeps only C for that document. -/
theorem resolve_outer_masks_conflict (A B C : Edit)
    (hpB : canonPath B.path = canonPath A.path)
    (hpC : canonPath C.path = canonPath A.path)
    (h1 : A.span.1 < B.span.1) (h2 : B.span.1 < A.span.2) (h3 : A.span.2 < B.span.2)
    (hCs : C.span.1 ≤ A.span.1) (hCe : B.span.2 ≤ C.span.2) :
    merge_edits [A, B, C] = .ok [C] ∧ merge_edits [A, C, B] = .ok [C] ∧
      merge_edits [B, A, C] = .ok [C] ∧ merge_edits [B, C, A] = .ok [C] ∧
      merge_edits [C, A, B] = .ok [C] ∧ merge_edits [C, B, A] = .ok [C] := by
  set k := canonPath A.path with hk
  have hAB : editLe A B := Or.inl h1
  have hnBA : ¬ editLe B A := by unfold editLe; omega
  have hCA : editLe C A := by unfold editLe; omega
  have hnAC : ¬ editLe A C := by unfold editLe; omega
  have hCB : editLe C B := by unfold editLe; omega
  have hnBC : ¬ editLe B C := by unfold editLe; omega
  have hset : ∀ e : Edit, e = A ∨ e = B ∨ e = C → canonPath e.path = k := by
    rintro e (rfl | rfl | rfl)
    · rfl
    · exact hpB
    · exact hpC
  have hloop : mergeLoop k C [A, B] = .ok [] := by
    simp only [mergeLoop]
    rw [if_pos (show A.span.1 < C.span.2 by omega),
        if_pos (show A.span.2 ≤ C.span.2 by omega),
        if_pos (show B.span.1 < C.span.2 by omega),
        if_pos (show B.span.2 ≤ C.span.2 by omega)]
  have hgrp : mergeGroup k [C, A, B] = .ok [C] := by
    simp only [mergeGroup, hloop]
  have e1 : List.insertionSort editLe [A, B, C] = [C, A, B] := by
    show List.orderedInsert editLe A
      (List.orderedInsert editLe B (List.orderedInsert editLe C [])) = _
    rw [show List.orderedInsert editLe C [] = [C] from rfl, orderedInsert_neg [] hnBC,
        show List.orderedInsert editLe B [] = [B] from rfl, orderedInsert_neg [B] hnAC,
        orderedInsert_pos [] hAB]
  have e2 : List.insertionSort editLe [A, C, B] = [C, A, B] := by
    show List.orderedInsert editLe A
      (List.orderedInsert editLe C (List.orderedInsert editLe B [])) = _
    rw [show List.orderedInsert editLe B [] = [B] from rfl, orderedInsert_pos [] hCB,
        orderedInsert_neg [B] hnAC, orderedInsert_pos [] hAB]
  have e3 : List.insertionSort editLe [B, A, C] = [C, A, B] := by
    show List.orderedInsert editLe B
      (List.orderedInsert editLe A (List.orderedInsert editLe C [])) = _
    rw [show List.orderedInsert editLe C [] = [C] from rfl, orderedInsert_neg [] hnAC,
        show List.orderedInsert editLe A [] = [A] from rfl, orderedInsert_neg [A] hnBC,
        orderedInsert_neg [] hnBA, show List.orderedInsert editLe B [] = [B] from rfl]
  have e4 : List.insertionSort editLe [B, C, A] = [C, A, B] := by
    show List.orderedInsert editLe B
      (List.orderedInsert editLe C (List.orderedInsert editLe A [])) = _
    rw [show List.orderedInsert editLe A [] = [A] from rfl, orderedInsert_pos [] hCA,
        orderedInsert_neg [A] hnBC, orderedInsert_neg [] hnBA,
        show List.orderedInsert editLe B [] = [B] from rfl]
  have e5 : List.insertionSort editLe [C, A, B] = [C, A, B] := by
    show List.orderedInsert editLe C
      (List.orderedInsert editLe A (List.orderedInsert editLe B [])) = _
    rw [show List.orderedInsert editLe B [] = [B] from rfl, orderedInsert_pos [] hAB,
        orderedInsert_pos [B] hCA]
  have e6 : List.insertionSort editLe [C, B, A] = [C, A, B] := by
    show List.orderedInsert editLe C
      (List.orderedInsert editLe B (List.orderedInsert editLe A [])) = _
    rw [show List.orderedInsert editLe A [] = [A] from rfl, orderedInsert_neg [] hnBA,
        show List.orderedInsert editLe B [] = [B] from rfl, orderedInsert_pos [B] hCA]
  refine ⟨?_, ?_, ?_, ?_, ?_, ?_⟩
  · rw [merge_single (by simp) (fun e he => hset e (by simpa using he)), e1, hgrp]
  · rw [merge_single (by simp) (fun e he => hset e (by have := (by simpa using he : e = A ∨ e = C ∨ e = B); tauto)), e2, hgrp]
  · rw [merge_single (by simp) (fun e he => hset e (by have := (by simpa using he : e = B ∨ e = A ∨ e = C); tauto)), e3, hgrp]
  · rw [merge_single (by simp) (fun e he => hset e (by have := (by simpa using he : e = B ∨ e = C ∨ e = A); tauto)), e4, hgrp]
  · rw [merge_single (by simp) (fun e he => hset e (by have := (by simpa using he : e = C ∨ e = A ∨ e = B); tauto)), e5, hgrp]
  · rw [merge_single (by simp) (fun e he => hset e (by have := (by simpa using he : e = C ∨ e = B ∨ e = A); tauto)), e6, hgrp]

/-- Witness for C9: A = (2,6), B = (4,9) partially overlap, C = (0,10)
contains both; every insertion order resolves to just C. -/
theorem resolve_outer_masks_conflict_witness :
    merge_edits [⟨"d", (2, 6), ['A']⟩, ⟨"d", (4, 9), ['B']⟩, ⟨"d", (0, 10), ['C']⟩] =
        .ok [⟨"d", (0, 10), ['C']⟩] ∧
      merge_edits [⟨"d", (2, 6), ['A']⟩, ⟨"d", (0, 10), ['C']⟩, ⟨"d", (4, 9), ['B']⟩] =
        .ok [⟨"d", (0, 10), ['C']⟩] ∧
      merge_edits [⟨"d", (4, 9), ['B']⟩, ⟨"d", (2, 6), ['A']⟩, ⟨"d", (0, 10), ['C']⟩] =
        .ok [⟨"d", (0, 10), ['C']⟩] ∧
      merge_edits [⟨"d", (4, 9), ['B']⟩, ⟨"d", (0, 10), ['C']⟩, ⟨"d", (2, 6), ['A']⟩] =
        .ok [⟨"d", (0, 10), ['C']⟩] ∧
      merge_edits [⟨"d", (0, 10), ['C']⟩, ⟨"d", (2, 6), ['A']⟩, ⟨"d", (4, 9), ['B']⟩] =
        .ok [⟨"d", (0, 10), ['C']⟩] ∧
      merge_edits [⟨"d", (0, 10), ['C']⟩, ⟨"d", (4, 9), ['B']⟩, ⟨"d", (2, 6), ['A']⟩] =
        .ok [⟨"d", (0, 10), ['C']⟩] :=
  resolve_outer_masks_conflict ⟨"d", (2, 6), ['A']⟩ ⟨"d", (4, 9), ['B']⟩
    ⟨"d", (0, 10), ['C']⟩ rfl rfl (by decide) (by decide) (by decide) (by decide) (by decide)

theorem applyLoop_ok_iff (l : List Edit) :
    ∀ (out : List Char) (b : Int), (∃ res, applyLoop out b l = .ok res) ↔ spansValid b l := by
  induction l with
  | nil => intro out b; simp [applyLoop, spansValid]
  | cons e rest ih =>
    intro out b
    simp only [applyLoop, spansValid]
    by_cases hc : 0 ≤ e.span.1 ∧ e.span.1 ≤ e.span.2 ∧ e.span.2 ≤ b
    · rw [if_pos hc]
      simp only [hc, true_and]
      exact ih _ _
    · rw [if_neg hc]
      simp [hc]

/-- C5: a single in-bounds edit (s, t, X) splices the text to
`text[0:s] + X + text[t:N]`, including pure insertion (s = t) and full
replacement (s = 0, t = N); the empty edit list is the identity. -/
theorem apply_single_edit (text : List Char) (s t : Int) (X : List Char) (p : String)
    (h0 : 0 ≤ s) (hst : s ≤ t) (htN : t ≤ (text.length : Int)) :
    _apply_edits_to_text text [⟨p, (s, t), X⟩] =
        .ok (text.take s.toNat ++ X ++ text.drop t.toNat) ∧
      _apply_edits_to_text text [] = .ok text := by
  refine ⟨?_, rfl⟩
  show applyLoop text _ (List.insertionSort descLe [⟨p, (s, t), X⟩]) = _
  rw [show List.insertionSort descLe [(⟨p, (s, t), X⟩ : Edit)] = [⟨p, (s, t), X⟩] from rfl]
  simp only [applyLoop]
  rw [if_pos (⟨h0, hst, htN⟩ :
    (0 : Int) ≤ (⟨p, (s, t), X⟩ : Edit).span.1 ∧
      (⟨p, (s, t), X⟩ : Edit).span.1 ≤ (⟨p, (s, t), X⟩ : Edit).span.2 ∧
      (⟨p, (s, t), X⟩ : Edit).span.2 ≤ (text.length : Int))]

/-- Witness for C5: a middle replacement, a pure insertion at an offset, a
full replacement, on the spec's ten-character document. -/
theorem apply_single_edit_witness :
    _apply_edits_to_text "ABCDEFGHIJ".data [⟨"d", (2, 5), ['X']⟩] =
        .ok ("ABCDEFGHIJ".data.take 2 ++ ['X'] ++ "ABCDEFGHIJ".data.drop 5) ∧
      _apply_edits_to_text "ABCDEFGHIJ".data [] = .ok "ABCDEFGHIJ".data :=
  apply_single_edit "ABCDEFGHIJ".data 2 5 ['X'] "d" (by decide) (by decide) (by decide)

/-- C4: the patcher succeeds exactly when the descending-start-ordered edits
satisfy 0 ≤ start ≤ end ≤ boundary at every step, where the boundary starts
at the text length and tightens to each applied edit's start (so it is
all-or-nothing); in particular a pair of edits with a nonempty span
intersection fails with a span error in either supplied order. -/
theorem apply_overlap_fails (text : List Char) (e1 e2 : Edit)
    (hovl : max e1.span.1 e2.span.1 < min e1.span.2 e2.span.2) :
    (∀ edits : List Edit,
        (∃ res, _apply_edits_to_text text edits = .ok res) ↔
          spansValid (text.length : Int) (List.insertionSort descLe edits)) ∧
      (¬ ∃ res, _apply_edits_to_text text [e1, e2] = .ok res) ∧
      (¬ ∃ res, _apply_edits_to_text text [e2, e1] = .ok res) := by
  have hiff : ∀ edits : List Edit,
      (∃ res, _apply_edits_to_text text edits = .ok res) ↔
        spansValid (text.length : Int) (List.insertionSort descLe edits) :=
    fun edits => applyLoop_ok_iff _ _ _
  rw [max_lt_iff, lt_min_iff, lt_min_iff] at hovl
  refine ⟨hiff, ?_, ?_⟩
  · rw [hiff]
    by_cases h : descLe e1 e2
    · rw [sort_pair_le h]
      simp only [spansValid]
      unfold descLe at h
      omega
    · rw [sort_pair_gt h]
      simp only [spansValid]
      unfold descLe at h
      omega
  · rw [hiff]
    by_cases h : descLe e2 e1
    · rw [sort_pair_le h]
      simp only [spansValid]
      unfold descLe at h
      omega
    · rw [sort_pair_gt h]
      simp only [spansValid]
      unfold descLe at h
      omega

/-- Witness for C4: the partially overlapping spans (0,5) and (3,8) on a
ten-character text fail in both orders, and the success-iff-valid-spans
characterisation holds for them. -/
theorem apply_overlap_fails_witness :
    (∀ edits : List Edit,
        (∃ res, _apply_edits_to_text "ABCDEFGHIJ".data edits = .ok res) ↔
          spansValid ("ABCDEFGHIJ".data.length : Int) (List.insertionSort descLe edits)) ∧
      (¬ ∃ res, _apply_edits_to_text "ABCDEFGHIJ".data
        [⟨"d", (0, 5), ['a']⟩, ⟨"d", (3, 8), ['b']⟩] = .ok res) ∧
      (¬ ∃ res, _apply_edits_to_text "ABCDEFGHIJ".data
        [⟨"d", (3, 8), ['b']⟩, ⟨"d", (0, 5), ['a']⟩] = .ok res) :=
  apply_overlap_fails "ABCDEFGHIJ".data ⟨"d", (0, 5), ['a']⟩ ⟨"d", (3, 8), ['b']⟩
    (by decide)

/-- C8 counterexample: the pair (2,2,"X"), (2,8,"Y") is non-overlapping in
the claim's sense (e1.end ≤ e2.start), yet the two insertion orders give
different results (one errors, the other succeeds). -/
theorem apply_pair_order_dependent :
    _apply_edits_to_text "abcdefgh".data [⟨"a", (2, 2), ['X']⟩, ⟨"a", (2, 8), ['Y']⟩] ≠
      _apply_edits_to_text "abcdefgh".data [⟨"a", (2, 8), ['Y']⟩, ⟨"a", (2, 2), ['X']⟩] := by
  decide

/-- C8 amended: for two non-overlapping edits (e1.end ≤ e2.start) with
distinct start offsets, the patcher's result does not depend on the order
in which the pair is supplied (an empty e1 sitting exactly at e2's start is
the one excluded case). -/
theorem apply_pair_order_independent (text : List Char) (e1 e2 : Edit)
    (hno : e1.span.2 ≤ e2.span.1) (hlt : e1.span.1 < e2.span.1) :
    _apply_edits_to_text text [e1, e2] = _apply_edits_to_text text [e2, e1] := by
  have h12 : ¬ descLe e1 e2 := by unfold descLe; omega
  have h21 : descLe e2 e1 := by unfold descLe; omega
  unfold _apply_edits_to_text
  rw [sort_pair_gt h12, sort_pair_le h21]

/-- Witness for C8 (amended): the spec's disjoint pair (2,5,"X") and
(7,7,"Y") applies identically in both orders. -/
theorem apply_pair_order_independent_witness :
    _apply_edits_to_text "ABCDEFGHIJ".data
        [⟨"d", (2, 5), ['X']⟩, ⟨"d", (7, 7), ['Y']⟩] =
      _apply_edits_to_text "ABCDEFGHIJ".data
        [⟨"d", (7, 7), ['Y']⟩, ⟨"d", (2, 5), ['X']⟩] :=
  apply_pair_order_independent "ABCDEFGHIJ".data ⟨"d", (2, 5), ['X']⟩
    ⟨"d", (7, 7), ['Y']⟩ (by decide) (by decide)

instance : DecidableRel before := fun a b => by
  unfold before; exact inferInstance

theorem pathKeys_pairwise_lt (E : List Edit) : (pathKeys E).Pairwise pathLt := by
  have hs : (pathKeys E).Sorted pathLe := List.sorted_insertionSort _ _
  have hn : (pathKeys E).Nodup :=
    ((List.perm_insertionSort _ _).nodup_iff).2 (List.nodup_dedup _)
  exact List.Pairwise.and hs hn

/-- Invariants of `mergeAll` on success: every output edit's key is among
the processed keys, keys are weakly increasing along the output, and each
per-key restriction of the output is sorted by the resolver order and
pairwise non-overlapping. -/
theorem mergeAll_props {E : List Edit} :
    ∀ {ks : List String} {out : List Edit}, ks.Pairwise pathLt →
      mergeAll E ks = .ok out →
      (∀ e ∈ out, canonPath e.path ∈ ks) ∧
        out.Pairwise (fun a b => pathLe (canonPath a.path) (canonPath b.path)) ∧
        ∀ k, (out.filter fun e => canonPath e.path == k).Sorted editLe ∧
          (out.filter fun e => canonPath e.path == k).Pairwise before := by
  intro ks
  induction ks with
  | nil =>
    intro out _ h
    simp only [mergeAll, Except.ok.injEq] at h
    subst h
    exact ⟨by simp, List.Pairwise.nil, fun k => ⟨List.sorted_nil, List.Pairwise.nil⟩⟩
  | cons k ks ih =>
    intro out hpw h
    have hhd : ∀ x ∈ ks, pathLt k x := (List.pairwise_cons.1 hpw).1
    have htl : ks.Pairwise pathLt := (List.pairwise_cons.1 hpw).2
    simp only [mergeAll] at h
    cases hm : mergeGroup k
        (List.insertionSort editLe (E.filter fun e => canonPath e.path == k)) with
    | error err =>
      simp only [hm] at h
      exact absurd h (by simp)
    | ok g =>
      simp only [hm] at h
      cases hr : mergeAll E ks with
      | error err =>
        simp only [hr] at h
        exact absurd h (by simp)
      | ok rest =>
        simp only [hr, Except.ok.injEq] at h
        subst h
        have hsorted := List.sorted_insertionSort editLe
          (E.filter fun e => canonPath e.path == k)
        have hsub := mergeGroup_sublist hm
        have hkg : ∀ e ∈ g, canonPath e.path = k := by
          intro e he
          have h1 : e ∈ List.insertionSort editLe
              (E.filter fun x => canonPath x.path == k) := hsub.subset he
          have h2 : e ∈ E.filter fun x => canonPath x.path == k := by simpa using h1
          simpa using (List.mem_filter.1 h2).2
        have hsg : g.Sorted editLe := List.Pairwise.sublist hsub hsorted
        have hbg : g.Pairwise before := mergeGroup_pairwise hsorted hm
        obtain ⟨ihmem, ihpw, ihfil⟩ := ih htl hr
        refine ⟨?_, ?_, ?_⟩
        · intro e he
          rcases List.mem_append.1 he with he | he
          · rw [hkg e he]; exact List.mem_cons_self _ _
          · exact List.mem_cons_of_mem _ (ihmem e he)
        · refine List.pairwise_append.2 ⟨?_, ihpw, ?_⟩
          · exact List.pairwise_of_forall_mem_list fun a ha b hb => by
              rw [hkg a ha, hkg b hb]
              exact pathLe_refl k
          · intro a ha b hb
            rw [hkg a ha]
            exact (hhd _ (ihmem b hb)).1
        · intro q
          rw [List.filter_append]
          by_cases hkk : q = k
          · subst hkk
            have hg1 : (g.filter fun e => canonPath e.path == q) = g :=
              List.filter_eq_self.2 fun a ha => by simp [hkg a ha]
            have hr1 : (rest.filter fun e => canonPath e.path == q) = [] :=
              List.filter_eq_nil_iff.2 fun a ha => by
                simpa using (hhd _ (ihmem a ha)).2.symm
            rw [hg1, hr1, List.append_nil]
            exact ⟨hsg, hbg⟩
          · have hg0 : (g.filter fun e => canonPath e.path == q) = [] :=
              List.filter_eq_nil_iff.2 fun a ha => by
                simp only [beq_iff_eq]
                rw [hkg a ha]
                exact fun hc => hkk hc.symm
            rw [hg0, List.nil_append]
            exact ihfil q

/-- C3: whenever `merge_edits` succeeds, its output restricted to any one
document is sorted by ascending start offset with every earlier edit's end ≤
every later edit's start (strict non-overlap, adjacency permitted), and the
per-document groups are concatenated in ascending order of the canonical
path strings. -/
theorem merge_output_invariant (edits out : List Edit) (k : String)
    (h : merge_edits edits = .ok out) :
    (out.filter fun e => canonPath e.path == k).Pairwise
        (fun a b => a.span.1 ≤ b.span.1 ∧ a.span.2 ≤ b.span.1) ∧
      out.Pairwise (fun a b => pathLe (canonPath a.path) (canonPath b.path)) := by
  obtain ⟨-, hpw, hfil⟩ := mergeAll_props (pathKeys_pairwise_lt edits) h
  obtain ⟨hs, hb⟩ := hfil k
  refine ⟨List.Pairwise.imp ?_ (List.Pairwise.and hs hb), hpw⟩
  intro a b hab
  obtain ⟨h1, h2⟩ := hab
  unfold editLe at h1
  unfold before at h2
  exact ⟨by omega, h2⟩

/-- Witness for C3: a concrete two-document edit set; the "a" group comes
out sorted and non-overlapping, before the "b" group. -/
theorem merge_output_invariant_witness :
    (((.ok [⟨"a", (0, 3), ['z']⟩, ⟨"a", (4, 6), ['y']⟩, ⟨"b", (0, 2), ['x']⟩] :
          Except ConflictError (List Edit)).toOption.getD []).filter
        (fun e => canonPath e.path == "a")).Pairwise
        (fun a b => a.span.1 ≤ b.span.1 ∧ a.span.2 ≤ b.span.1) ∧
      ([⟨"a", (0, 3), ['z']⟩, ⟨"a", (4, 6), ['y']⟩, ⟨"b", (0, 2), ['x']⟩] :
          List Edit).Pairwise
        (fun a b => pathLe (canonPath a.path) (canonPath b.path)) := by
  have := merge_output_invariant
    [⟨"b", (0, 2), ['x']⟩, ⟨"a", (4, 6), ['y']⟩, ⟨"a", (0, 3), ['z']⟩]
    [⟨"a", (0, 3), ['z']⟩, ⟨"a", (4, 6), ['y']⟩, ⟨"b", (0, 2), ['x']⟩]
    "a" (by decide)
  exact this

/-- Under the resolver's sort order, pairwise-disjoint well-formed spans
with no empty span at another edit's identical start offset are in fact
pairwise "end ≤ next start". -/
theorem sorted_disjoint_pairwise {l : List Edit}
    (hs : l.Sorted editLe)
    (hwf : ∀ e ∈ l, e.span.1 ≤ e.span.2)
    (hdisj : l.Pairwise fun a b => before a b ∨ before b a)
    (hne : ∀ a ∈ l, ∀ b ∈ l,
      a.span.1 = b.span.1 → a.span.1 = a.span.2 → b.span.1 = b.span.2) :
    l.Pairwise before := by
  refine List.Pairwise.imp_of_mem ?_ (List.Pairwise.and hs hdisj)
  intro a b ha hb hab
  obtain ⟨hle, hd⟩ := hab
  rcases hd with hd | hd
  · exact hd
  · have hwa := hwf a ha
    have hwb := hwf b hb
    unfold editLe at hle
    unfold before at hd ⊢
    have hsb : b.span.1 = a.span.1 := by omega
    have heb : b.span.1 = b.span.2 := by omega
    have hea : a.span.1 = a.span.2 := hne b hb a ha hsb heb
    omega

/-- C6 amended: pairwise non-overlapping well-formed edits on one document
all pass through the resolver, ordered by ascending start offset — provided
no edit's empty span sits at the identical start offset of another edit
(in that one excluded case the code drops the empty edit as "nested"). -/
theorem resolve_disjoint_passthrough (edits : List Edit) (k : String)
    (hall : ∀ e ∈ edits, canonPath e.path = k)
    (hwf : ∀ e ∈ edits, e.span.1 ≤ e.span.2)
    (hdisj : edits.Pairwise fun a b => before a b ∨ before b a)
    (hne : ∀ a ∈ edits, ∀ b ∈ edits,
      a.span.1 = b.span.1 → a.span.1 = a.span.2 → b.span.1 = b.span.2) :
    merge_edits edits = .ok (List.insertionSort editLe edits) ∧
      (List.insertionSort editLe edits).Perm edits ∧
      (List.insertionSort editLe edits).Pairwise fun a b => a.span.1 ≤ b.span.1 := by
  have hperm := List.perm_insertionSort editLe edits
  have hsorted := List.sorted_insertionSort editLe edits
  have hpb : (List.insertionSort editLe edits).Pairwise before := by
    apply sorted_disjoint_pairwise hsorted
    · intro e he; exact hwf e (hperm.subset he)
    · exact (hperm.pairwise_iff Or.symm).2 hdisj
    · intro a ha b hb
      exact hne a (hperm.subset ha) b (hperm.subset hb)
  refine ⟨?_, hperm,
    List.Pairwise.imp (fun h => by unfold editLe at h; omega) hsorted⟩
  rcases edits with _ | ⟨e0, rest⟩
  · rfl
  · rw [merge_single (by simp) hall]
    exact mergeGroup_all_ok hpb.chain'

/-- Witness for C6 (amended): the spec's disjoint pair (7,7) and (2,5) on
one document passes through sorted by start. -/
theorem resolve_disjoint_passthrough_witness :
    merge_edits [⟨"d", (7, 7), ['Y']⟩, ⟨"d", (2, 5), ['X']⟩] =
        .ok (List.insertionSort editLe [⟨"d", (7, 7), ['Y']⟩, ⟨"d", (2, 5), ['X']⟩]) ∧
      (List.insertionSort editLe
        [⟨"d", (7, 7), ['Y']⟩, ⟨"d", (2, 5), ['X']⟩]).Perm
        [⟨"d", (7, 7), ['Y']⟩, ⟨"d", (2, 5), ['X']⟩] ∧
      (List.insertionSort editLe
        [⟨"d", (7, 7), ['Y']⟩, ⟨"d", (2, 5), ['X']⟩]).Pairwise
        fun a b => a.span.1 ≤ b.span.1 :=
  resolve_disjoint_passthrough [⟨"d", (7, 7), ['Y']⟩, ⟨"d", (2, 5), ['X']⟩] "d"
    (by decide) (by decide) (by decide) (by decide)

/-- C6 counterexample: an empty-span edit at the identical start offset of a
longer edit is disjoint from it (end ≤ start) and well formed, yet the
resolver silently drops it instead of passing both through. -/
theorem resolve_disjoint_dropped :
    merge_edits [⟨"a", (5, 5), ['a']⟩, ⟨"a", (5, 7), ['b']⟩] =
        .ok [⟨"a", (5, 7), ['b']⟩] ∧
      (⟨"a", (5, 5), ['a']⟩ : Edit) ∉ [(⟨"a", (5, 7), ['b']⟩ : Edit)] := by decide

/-- A list whose keys are weakly increasing and all ≥ key k splits as the
k-block followed by the strictly-greater block. -/
theorem filter_key_split {k : String} :
    ∀ {out : List Edit},
      out.Pairwise (fun a b => pathLe (canonPath a.path) (canonPath b.path)) →
      (∀ e ∈ out, canonPath e.path = k ∨ pathLt k (canonPath e.path)) →
      out = (out.filter fun e => canonPath e.path == k) ++
          (out.filter fun e => ! (canonPath e.path == k)) ∧
        ∀ e ∈ out.filter fun e => ! (canonPath e.path == k),
          pathLt k (canonPath e.path) := by
  intro out
  induction out with
  | nil => intro _ _; exact ⟨rfl, by simp⟩
  | cons e out' ih =>
    intro hpw hmin
    by_cases hek : canonPath e.path = k
    · obtain ⟨ih1, ih2⟩ := ih hpw.of_cons
        (fun x hx => hmin x (List.mem_cons_of_mem _ hx))
      constructor
      · rw [List.filter_cons_of_pos (by simp [hek]),
          List.filter_cons_of_neg (by simp [hek]), List.cons_append]
        exact congrArg (e :: ·) ih1
      · intro x hx
        rw [List.filter_cons_of_neg (by simp [hek])] at hx
        exact ih2 x hx
    · have hke : pathLt k (canonPath e.path) :=
        (hmin e (List.mem_cons_self _ _)).resolve_left hek
      have hall : ∀ x ∈ e :: out', pathLt k (canonPath x.path) := by
        intro x hx
        rcases List.mem_cons.1 hx with rfl | hx
        · exact hke
        · exact pathLt_of_lt_of_le hke (List.rel_of_pairwise_cons hpw hx)
      constructor
      · rw [List.filter_eq_nil_iff.2
            (fun a ha => by simpa using (hall a ha).2.symm),
          List.nil_append,
          List.filter_eq_self.2 (fun a ha => by simpa using (hall a ha).2.symm)]
      · intro x hx
        exact hall x (List.mem_filter.1 hx).1

/-- Concatenating the per-key restrictions of a key-sorted list, over a
strictly ascending key list covering all its keys, reassembles the list. -/
theorem join_filters_eq : ∀ {ks : List String} {out : List Edit},
    ks.Pairwise pathLt →
    (∀ e ∈ out, canonPath e.path ∈ ks) →
    out.Pairwise (fun a b => pathLe (canonPath a.path) (canonPath b.path)) →
    (ks.map fun k => out.filter fun e => canonPath e.path == k).flatten = out := by
  intro ks
  induction ks with
  | nil =>
    intro out _ hmem _
    cases out with
    | nil => rfl
    | cons e _ => exact absurd (hmem e (List.mem_cons_self _ _)) (by simp)
  | cons k ks ih =>
    intro out hpw hmem hord
    have hhd : ∀ x ∈ ks, pathLt k x := (List.pairwise_cons.1 hpw).1
    have htl : ks.Pairwise pathLt := (List.pairwise_cons.1 hpw).2
    have hmin : ∀ e ∈ out, canonPath e.path = k ∨ pathLt k (canonPath e.path) := by
      intro e he
      rcases List.mem_cons.1 (hmem e he) with h | h
      · exact Or.inl h
      · exact Or.inr (hhd _ h)
    obtain ⟨hsplit, hgt⟩ := filter_key_split hord hmin
    have hf : ∀ q ∈ ks, (out.filter fun e => canonPath e.path == q) =
        (out.filter fun e => ! (canonPath e.path == k)).filter
          fun e => canonPath e.path == q := by
      intro q hq
      rw [List.filter_filter]
      apply List.filter_congr
      intro a _
      cases hpe : (canonPath a.path == q) with
      | true =>
        have haq : canonPath a.path = q := by simpa using hpe
        have hnk : (canonPath a.path == k) = false := by
          simp only [beq_eq_false_iff_ne, ne_eq, haq]
          exact fun hc => (hhd q hq).2 hc.symm
        simp [hnk]
      | false => simp
    have ihtl := @ih (out.filter fun e => ! (canonPath e.path == k)) htl
      (by
        intro x hx
        have hx1 := (List.mem_filter.1 hx).1
        have hxk : canonPath x.path ≠ k := by
          have h2 := (List.mem_filter.1 hx).2
          simpa using h2
        rcases List.mem_cons.1 (hmem x hx1) with h | h
        · exact absurd h hxk
        · exact h)
      (List.Pairwise.sublist (List.filter_sublist _) hord)
    rw [List.map_cons, List.flatten_cons, List.map_congr_left hf, ihtl, ← hsplit]

theorem mergeAll_groups_ok {E : List Edit} : ∀ {ks : List String},
    (∀ k ∈ ks,
      mergeGroup k (List.insertionSort editLe (E.filter fun e => canonPath e.path == k)) =
        .ok (E.filter fun e => canonPath e.path == k)) →
    mergeAll E ks = .ok (ks.map fun k => E.filter fun e => canonPath e.path == k).flatten := by
  intro ks
  induction ks with
  | nil => intro _; rfl
  | cons k ks ih =>
    intro h
    simp only [mergeAll]
    rw [h k (List.mem_cons_self _ _), ih (fun q hq => h q (List.mem_cons_of_mem _ hq))]
    rfl

/-- A list already satisfying the resolver's output invariants is a fixed
point of `merge_edits`. -/
theorem merge_fixed {out : List Edit}
    (hpw : out.Pairwise fun a b => pathLe (canonPath a.path) (canonPath b.path))
    (hfil : ∀ k, (out.filter fun e => canonPath e.path == k).Sorted editLe ∧
      (out.filter fun e => canonPath e.path == k).Pairwise before) :
    merge_edits out = .ok out := by
  have hks : (pathKeys out).Pairwise pathLt := pathKeys_pairwise_lt out
  have hmem : ∀ e ∈ out, canonPath e.path ∈ pathKeys out := by
    intro e he
    unfold pathKeys
    rw [List.mem_insertionSort]
    exact List.mem_dedup.2 (List.mem_map_of_mem _ he)
  have hgrps : ∀ k ∈ pathKeys out,
      mergeGroup k (List.insertionSort editLe (out.filter fun e => canonPath e.path == k)) =
        .ok (out.filter fun e => canonPath e.path == k) := by
    intro k _
    obtain ⟨hs, hb⟩ := hfil k
    rw [hs.insertionSort_eq]
    exact mergeGroup_all_ok hb.chain'
  show mergeAll out (pathKeys out) = .ok out
  rw [mergeAll_groups_ok hgrps, join_filters_eq hks hmem hpw]

/-- C10: `merge_edits` is idempotent — rerunning it on its own successful
output returns that output unchanged with no error, which the pipeline
relies on when `apply_edits_preview` re-merges the already-merged list. -/
theorem merge_idempotent (edits out : List Edit) (h : merge_edits edits = .ok out) :
    merge_edits out = .ok out := by
  obtain ⟨-, hpw, hfil⟩ := mergeAll_props (pathKeys_pairwise_lt edits) h
  exact merge_fixed hpw hfil

/-- Witness for C10: a nested pair plus a second document; re-merging the
merged output reproduces it. -/
theorem merge_idempotent_witness :
    merge_edits [⟨"d", (0, 10), ['O']⟩, ⟨"e", (1, 2), ['w']⟩] =
      .ok [⟨"d", (0, 10), ['O']⟩, ⟨"e", (1, 2), ['w']⟩] :=
  merge_idempotent [⟨"d", (2, 4), ['i']⟩, ⟨"d", (0, 10), ['O']⟩, ⟨"e", (1, 2), ['w']⟩]
    [⟨"d", (0, 10), ['O']⟩, ⟨"e", (1, 2), ['w']⟩] (by decide)

/-!
Concrete scenarios from the specification, checked by evaluation:
disjoint pass-through, the conflict pair (0,5)/(3,8), the containment pair
(0,10)/(2,4), the `"ABCDEFGHIJ"` patch, and the path canonicalisation.
-/

example :
    merge_edits [⟨"d", (2, 5), ['X']⟩, ⟨"d", (7, 7), ['Y']⟩] =
      .ok [⟨"d", (2, 5), ['X']⟩, ⟨"d", (7, 7), ['Y']⟩] := by decide

example :
    merge_edits [⟨"d", (0, 5), ['a']⟩, ⟨"d", (3, 8), ['b']⟩] =
      .error ⟨"d", (0, 5), (3, 8)⟩ := by decide

example :
    merge_edits [⟨"d", (2, 4), ['i']⟩, ⟨"d", (0, 10), ['O']⟩] =
      .ok [⟨"d", (0, 10), ['O']⟩] := by decide

example :
    _apply_edits_to_text "ABCDEFGHIJ".data [⟨"d", (2, 5), ['X']⟩, ⟨"d", (7, 7), ['Y']⟩] =
      .ok "ABXFGYHIJ".data := by decide

example : canonPath "a//b/" = "a/b" := by decide
example : canonPath "" = "." := by decide
example : canonPath "//x" = "//x" := by decide
example : canonPath "///x" = "/x" := by decide
example : canonPath "./a.py" = "a.py" := by decide

end Pytoma
